import Mathlib

/-!
# Verification of the venn core: index schema, entry merge, set algebra, materialization

Shallow embedding of the Go sources of slackpad/venn (package core).  Bolt
buckets and Go maps are modelled as association lists; the bolt cursor walks
the list in order.  SHA-256 and the content sniffer are external collaborators
and appear as function parameters.  File contents are byte lists.
-/

set_option autoImplicit false

/-- Association-list insert with in-place replacement: the model of both
`bolt.Bucket.Put` and Go map assignment `m[k] = v` on a non-nil map. -/
def putAssoc {κ β : Type} [DecidableEq κ] : List (κ × β) → κ → β → List (κ × β)
  | [], k, v => [(k, v)]
  | (k0, v0) :: rest, k, v =>
    if k0 = k then (k, v) :: rest else (k0, v0) :: putAssoc rest k v

/-- Association-list lookup: the model of `bolt.Bucket.Get` and Go map reads. -/
def lookupA {κ β : Type} [DecidableEq κ] : List (κ × β) → κ → Option β
  | [], _ => none
  | (k0, v0) :: rest, k => if k0 = k then some v0 else lookupA rest k

/-- Association-list removal of a key: the model of `os.Remove` on the file map. -/
def removeAssoc {κ β : Type} [DecidableEq κ] : List (κ × β) → κ → List (κ × β)
  | [], _ => []
  | (k0, v0) :: rest, k => if k0 = k then rest else (k0, v0) :: removeAssoc rest k

/-! ## Entry model (`indexEntry` in the source)

`Paths` is a Go set (`map[string]struct{}`) and `Attachments` a Go map from
extension to sidecar path.  Iteration order of a Go map is irrelevant to all
claims below, so both are carried as association lists and observed through
membership and `lookupA`.  Timestamps are opaque integers. -/

structure IndexEntry where
  paths : List String
  attachments : List (String × String)
  size : Int
  timestamp : Int
  contentType : String
  deriving Repr, DecidableEq

/-- Go set insertion into the paths map: adding an element already present
changes nothing. -/
def insertPath (ps : List String) (p : String) : List String :=
  if p ∈ ps then ps else ps ++ [p]

/-- `indexEntry.merge` from the source: union the path sets and copy every
attachment of `other` over, overwriting a colliding extension with `other`'s
value; the remaining fields are untouched. -/
def IndexEntry.merge (entry other : IndexEntry) : IndexEntry :=
  { entry with
    paths := other.paths.foldl insertPath entry.paths
    attachments := other.attachments.foldl (fun m kv => putAssoc m kv.1 kv.2) entry.attachments }

/-! ## Set algebra engine (`src/core/set.go`)

A bolt `HASHES` bucket maps a SHA-256 key (a byte list) to a stored entry.
`merge`, `intersect` and the `SetDifference` loop walk the first bucket with a
cursor (list order here) and do point lookups in the second.  `SetDifference`
copies the raw stored value without decoding it, so its loop is polymorphic in
the value type: it cannot merge or re-encode what it copies. -/

abbrev Hash := List Nat

abbrev BucketE := List (Hash × IndexEntry)

/-- First loop of `merge`: walk `first`; a key also in `second` gets the
entry-level merge, a key only in `first` is written as decoded.  The decode
step is totalized here (the entry is used as stored): this is the intended
semantics, used for the persistence invariants; the runtime's nil-map fault in
the decode-then-merge pipeline is modelled faithfully by `mergeLoopAGo` and
`mergeGoNil` further below. -/
def mergeLoopA (second : BucketE) : BucketE → BucketE → BucketE
  | [], target => target
  | (hash, entry) :: rest, target =>
    mergeLoopA second rest
      (match lookupA second hash with
       | some other => putAssoc target hash (entry.merge other)
       | none => putAssoc target hash entry)

/-- Second loop of `merge`: walk `second`, skip keys present in `first`, copy
the stored value of the rest verbatim. -/
def mergeLoopB (first : BucketE) : BucketE → BucketE → BucketE
  | [], target => target
  | (hash, entry) :: rest, target =>
    mergeLoopB first rest
      (if (lookupA first hash).isSome then target else putAssoc target hash entry)

/-- `merge(first, second, target)` with a fresh target, as used by `SetUnion`
— in the totalized form (see `mergeLoopA`); `mergeBucketsGo` below is the
fault-faithful form. -/
def mergeBuckets (first second : BucketE) : BucketE :=
  mergeLoopB first second (mergeLoopA second first [])

/-- `intersect`: walk `first`; only keys also present in `second` are written,
after the entry-level merge.  Totalized like `mergeLoopA` (the runtime's
nil-map fault is shared with `merge` and modelled by `mergeGoNil`); used here
for the persistence invariant, which a fault cannot weaken since a panicked
transaction rolls back and persists nothing. -/
def intersectLoop (second : BucketE) : BucketE → BucketE → BucketE
  | [], target => target
  | (hash, entry) :: rest, target =>
    intersectLoop second rest
      (match lookupA second hash with
       | some other => putAssoc target hash (entry.merge other)
       | none => target)

/-- `intersect(first, second, target)` with a fresh target, as used by
`SetIntersection`. -/
def intersectBuckets (first second : BucketE) : BucketE :=
  intersectLoop second first []

/-- The `SetDifference` cursor loop: copy the stored value of every key of the
first bucket that the second bucket does not contain.  Polymorphic in the
stored value: the bytes are moved verbatim. -/
def diffLoop {β : Type} (bucketB : List (Hash × β)) :
    List (Hash × β) → List (Hash × β) → List (Hash × β)
  | [], target => target
  | (hash, entryData) :: rest, target =>
    diffLoop bucketB rest
      (if (lookupA bucketB hash).isSome then target else putAssoc target hash entryData)

/-- `SetDifference`'s body with a fresh target. -/
def diffBuckets {β : Type} (bucketA bucketB : List (Hash × β)) : List (Hash × β) :=
  diffLoop bucketB bucketA []

/-! ## Store level: venn.db, CreateDB and getDB, and the set-operation commands

The nested bolt schema INDEXES → name → HASHES is flattened to a map from
index name to its hashes bucket; `bucketExistsForIndex` is a key test on it. -/

abbrev Store := List (String × BucketE)

def storeHasIndex (db : Store) (name : String) : Bool := (lookupA db name).isSome

/-- The body of the single write transaction shared by `SetUnion`,
`SetIntersection` and `SetDifference`: test the target *inside* the
transaction, then create the target namespace, obtain both source namespaces
(a writable transaction creates missing levels on demand) and run the cursor
loop `op` into the target. -/
def setOpBody (op : BucketE → BucketE → BucketE) (db : Store) (t a b : String) :
    Except String Store :=
  if storeHasIndex db t then .error "target index already exists"
  else
    let bA := (lookupA db a).getD []
    let bB := (lookupA db b).getD []
    let db1 := putAssoc db t []
    let db2 := putAssoc db1 a bA
    let db3 := putAssoc db2 b bB
    .ok (putAssoc db3 t (op bA bB))

/-- `db.Update`: the body's writes commit atomically on success; an error
rolls the transaction back, leaving the store unchanged. -/
def runUpdate (db : Store) (r : Except String Store) : Store × Option String :=
  match r with
  | .ok db2 => (db2, none)
  | .error e => (db, some e)

def setUnionGo (db : Store) (t a b : String) : Store × Option String :=
  if t = "" then (db, some "target index name cannot be empty")
  else if a = "" then (db, some "index A name cannot be empty")
  else if b = "" then (db, some "index B name cannot be empty")
  else runUpdate db (setOpBody mergeBuckets db t a b)

def setIntersectionGo (db : Store) (t a b : String) : Store × Option String :=
  if t = "" then (db, some "target index name cannot be empty")
  else if a = "" then (db, some "index A name cannot be empty")
  else if b = "" then (db, some "index B name cannot be empty")
  else runUpdate db (setOpBody intersectBuckets db t a b)

def setDifferenceGo (db : Store) (t a b : String) : Store × Option String :=
  if t = "" then (db, some "target index name cannot be empty")
  else if a = "" then (db, some "index A name cannot be empty")
  else if b = "" then (db, some "index B name cannot be empty")
  else runUpdate db (setOpBody (fun bA bB => diffBuckets bA bB) db t a b)

/-- The venn.db file: `none` when no store file exists. -/
abbrev VennFile := Option Store

/-- `CreateDB` from the source: `bolt.Open(dbPath, dbFileMode, nil)` creates
venn.db when it is absent and opens the existing file otherwise, never
truncating it; the handle is then closed. -/
def createDB (f : VennFile) : Except String VennFile :=
  match f with
  | none => .ok (some [])
  | some s => .ok (some s)

/-- `getDB`: `os.Stat` first, `ErrNotInitialized` when venn.db is absent. -/
def getDBGo (f : VennFile) : Except String Store :=
  match f with
  | none => .error "venn has not been initialized"
  | some s => .ok s

/-! ## Indexer (`src/core/index.go`)

The walk delivers regular files in a fixed order; each carries its path, its
content bytes and the stat metadata used by `makeFileEntry`. -/

structure FileMeta where
  path : String
  content : List Nat
  size : Int
  mtime : Int
  deriving Repr, DecidableEq

def defaultContentType : String := "application/octet-stream"

/-- Cut the parameters after a semicolon off a sniffed MIME type. -/
def stripParams (s : String) : String := String.mk (s.data.takeWhile (fun c => c ≠ ';'))

/-- `detectContentType`: files below 512 bytes get the fixed default type;
otherwise the first 512 bytes are sniffed (`http.DetectContentType` is the
`sniff` parameter) and the charset parameters are cut. -/
def detectContentType (sniff : List Nat → String) (f : FileMeta) : String :=
  if f.size < 512 then defaultContentType
  else stripParams (sniff (f.content.take 512))

/-- `makeFileEntry`: hash the content, fetch the existing entry for that hash
if any, otherwise build a fresh one from the file's metadata; in either case
add this path to the entry's path set. -/
def makeFileEntry (hfn : List Nat → Hash) (sniff : List Nat → String)
    (bucket : BucketE) (f : FileMeta) : Hash × IndexEntry :=
  let hash := hfn f.content
  let entry :=
    match lookupA bucket hash with
    | some e => e
    | none =>
      { paths := [], attachments := [], size := f.size, timestamp := f.mtime,
        contentType := detectContentType sniff f }
  (hash, { entry with paths := insertPath entry.paths f.path })

/-- `indexFile`: build the entry and write it back. -/
def indexFile (hfn : List Nat → Hash) (sniff : List Nat → String)
    (bucket : BucketE) (f : FileMeta) : BucketE :=
  let r := makeFileEntry hfn sniff bucket f
  putAssoc bucket r.1 r.2

/-- The `filepath.Walk` pass of `IndexAddFiles` over the regular files of a
tree, in walk order. -/
def indexFiles (hfn : List Nat → Hash) (sniff : List Nat → String)
    (files : List FileMeta) (bucket : BucketE) : BucketE :=
  files.foldl (indexFile hfn sniff) bucket

def trimSuffix (s suf : String) : String :=
  if s.endsWith suf then s.dropRight suf.length else s

/-- `indexGooglePhotosTakeout`: skip a .json sidecar whose companion content
file exists; otherwise index the file and, when its own sidecar exists,
overwrite the timestamp from the sidecar (when extraction succeeds, a warning
otherwise) and register the sidecar under its extension.  `stat` is the
filesystem existence test and `getTs` the external timestamp extractor. -/
def indexTakeoutFile (hfn : List Nat → Hash) (sniff : List Nat → String)
    (stat : String → Bool) (getTs : String → Option Int)
    (bucket : BucketE) (f : FileMeta) : BucketE :=
  if f.path.endsWith ".json" && stat (trimSuffix f.path ".json") then bucket
  else
    let r := makeFileEntry hfn sniff bucket f
    let mp := f.path ++ ".json"
    let entry2 :=
      if stat mp then
        match getTs mp with
        | some ts =>
          { r.2 with timestamp := ts, attachments := putAssoc r.2.attachments ".json" mp }
        | none => r.2
      else r.2
    putAssoc bucket r.1 entry2

/-- The walk pass of `IndexAddGooglePhotosTakeout`. -/
def indexTakeoutFiles (hfn : List Nat → Hash) (sniff : List Nat → String)
    (stat : String → Bool) (getTs : String → Option Int)
    (files : List FileMeta) (bucket : BucketE) : BucketE :=
  files.foldl (indexTakeoutFile hfn sniff stat getTs) bucket

/-- Every entry stored in the bucket has a non-empty path set. -/
def allNonEmpty (b : BucketE) : Bool := b.all (fun kv => !kv.2.paths.isEmpty)

/-! ## Materializer (`Materialize`, `copyFile`, `copyFileWithHash`)

The destination tree is a map from path to content bytes.  Directories and
modification times live outside the model: no claim below mentions them.
`mkTmp` stands for `os.CreateTemp` and names the temp file used for a given
destination; theorems assume the name is fresh, which `CreateTemp`
guarantees. -/

abbrev FileSys := List (String × List Nat)

def pathJoin (a b : String) : String := a ++ "/" ++ b

def hexDigit (n : Nat) : Char := if n < 10 then Char.ofNat (48 + n) else Char.ofNat (87 + n)

/-- Two-digit lowercase hex of one byte. -/
def hexByte (b : Nat) : String := String.mk [hexDigit (b / 16 % 16), hexDigit (b % 16)]

/-- Lowercase hex of a byte slice. -/
def hexBytes (l : List Nat) : String := String.join (l.map hexByte)

/-- `filepath.Ext` scans the final path element from the right and returns
the suffix from the last dot (empty when there is none). -/
def extFromRev (acc : List Char) : List Char → String
  | [] => ""
  | c :: rest =>
    if c = '/' then ""
    else if c = '.' then String.mk ('.' :: acc)
    else extFromRev (c :: acc) rest

def filepathExt (p : String) : String := extFromRev [] p.data.reverse

/-- The extension used by Materialize: `filepath.Ext`, a bare dot becoming
empty. -/
def extClean (src : String) : String :=
  let e := filepathExt src
  if e = "." then "" else e

/-- Go string comparison, lexicographic character by character (UTF-8 byte
order and codepoint order agree). -/
def listLeB : List Char → List Char → Bool
  | [], _ => true
  | _ :: _, [] => false
  | a :: as, b :: bs =>
    if a < b then true else if b < a then false else listLeB as bs

def strLe (a b : String) : Prop := listLeB a.data b.data = true

instance : DecidableRel strLe := fun _ _ => inferInstanceAs (Decidable (_ = true))

/-- `sort.Strings` (ascending lexicographic). -/
def sortStrings (l : List String) : List String := l.insertionSort strLe

/-- Destination of the primary file of one entry:
root/hex(hash[0])/hex(hash[1])/fullHexHash+ext, the extension taken from the
lexicographically first of the entry's paths. -/
def primaryDest (root : String) (hash : Hash) (entry : IndexEntry) : String :=
  pathJoin (pathJoin (pathJoin root (hexByte (hash.getD 0 0))) (hexByte (hash.getD 1 0)))
    (hexBytes hash ++ extClean ((sortStrings entry.paths).headD ""))

/-- `copyFileWithHash`: stream the source bytes into a fresh temp file while
hashing them; on a hash mismatch remove the temp file and fail (stale index);
on a match rename the temp file onto the destination.  (`os.Chtimes` only
touches a timestamp, which the file map does not carry.) -/
def copyFileWithHash (hfn : List Nat → Hash) (tmpName : String) (hash : Hash)
    (src dst : String) (fs : FileSys) : FileSys × Option String :=
  if hash = [] then (fs, some "hash cannot be empty")
  else if src = "" then (fs, some "source path cannot be empty")
  else if dst = "" then (fs, some "destination path cannot be empty")
  else
    match lookupA fs src with
    | none => (fs, some "failed to open source file")
    | some content =>
      let fs1 := putAssoc fs tmpName content
      if hfn content = hash then
        (putAssoc (removeAssoc fs1 tmpName) dst content, none)
      else
        (removeAssoc fs1 tmpName, some "hash mismatch: index is stale")

/-- `copyFile` for attachments: same temp-then-rename pattern, no hash
verification. -/
def copyFile (tmpName : String) (src dst : String) (fs : FileSys) :
    FileSys × Option String :=
  if src = "" then (fs, some "source path cannot be empty")
  else if dst = "" then (fs, some "destination path cannot be empty")
  else
    match lookupA fs src with
    | none => (fs, some "failed to open source file")
    | some content =>
      let fs1 := putAssoc fs tmpName content
      (putAssoc (removeAssoc fs1 tmpName) dst content, none)

/-- The attachment loop of Materialize: each attachment goes to
dir/fullHexHash+attachmentExt; an error aborts. -/
def copyAttachments (mkTmp : String → String) (dir : String) (hash : Hash) :
    List (String × String) → FileSys → FileSys × Option String
  | [], fs => (fs, none)
  | (ext, asrc) :: rest, fs =>
    let adst := pathJoin dir (hexBytes hash ++ ext)
    match copyFile (mkTmp adst) asrc adst fs with
    | (fs1, some e) => (fs1, some e)
    | (fs1, none) => copyAttachments mkTmp dir hash rest fs1

/-- One iteration of the Materialize cursor loop: shard directory from the
first two hash bytes, representative source = lexicographically first path
(`paths[0]` faults on an empty set), skip when the destination exists
(attachments included), else verified copy then attachments. -/
def materializeEntry (hfn : List Nat → Hash) (mkTmp : String → String)
    (root : String) (hash : Hash) (entry : IndexEntry) (fs : FileSys) :
    FileSys × Option String :=
  let dir := pathJoin (pathJoin root (hexByte (hash.getD 0 0))) (hexByte (hash.getD 1 0))
  match sortStrings entry.paths with
  | [] => (fs, some "panic: index out of range")
  | src :: _ =>
    let dst := pathJoin dir (hexBytes hash ++ extClean src)
    if (lookupA fs dst).isSome then (fs, none)
    else
      match copyFileWithHash hfn (mkTmp dst) hash src dst fs with
      | (fs1, some e) => (fs1, some e)
      | (fs1, none) => copyAttachments mkTmp dir hash entry.attachments fs1

/-- The Materialize cursor loop: a failure on any entry aborts the pass. -/
def matLoop (hfn : List Nat → Hash) (mkTmp : String → String) (root : String) :
    BucketE → FileSys → FileSys × Option String
  | [], fs => (fs, none)
  | (hash, entry) :: rest, fs =>
    match materializeEntry hfn mkTmp root hash entry fs with
    | (fs1, some e) => (fs1, some e)
    | (fs1, none) => matLoop hfn mkTmp root rest fs1

/-- `Materialize` runs under `db.View`, a read-only transaction: the store is
an input only and is returned untouched on every path. -/
def materializeIndexOp (hfn : List Nat → Hash) (mkTmp : String → String)
    (db : Store) (indexName root : String) (fs : FileSys) :
    Store × FileSys × Option String :=
  match lookupA db indexName with
  | none => (db, fs, some "index does not exist")
  | some bucket =>
    let r := matLoop hfn mkTmp root bucket fs
    (db, r.1, r.2)

/-! ## gob round trip and the nil-map merge

`putEntry` encodes with encoding/gob and `decodeEntry` decodes.  gob omits
zero-valued fields from the transmission, and an empty map is a zero value,
so a map field stored empty comes back as a nil map (`none` here). -/

structure GobEntry where
  paths : Option (List String)
  attachments : Option (List (String × String))
  size : Int
  timestamp : Int
  contentType : String
  deriving Repr, DecidableEq

/-- The observable effect of `putEntry` followed by `decodeEntry` on one
entry: empty map fields decode as nil maps, everything else round-trips. -/
def gobRoundTrip (e : IndexEntry) : GobEntry :=
  { paths := if e.paths.isEmpty then none else some e.paths,
    attachments := if e.attachments.isEmpty then none else some e.attachments,
    size := e.size, timestamp := e.timestamp, contentType := e.contentType }

/-- Go map assignment on a possibly-nil map: assigning into a nil map is a
runtime panic. -/
def goSetInsert (m : Option (List String)) (p : String) :
    Except String (Option (List String)) :=
  match m with
  | none => .error "assignment to entry in nil map"
  | some ps => .ok (some (insertPath ps p))

def goMapPut (m : Option (List (String × String))) (k v : String) :
    Except String (Option (List (String × String))) :=
  match m with
  | none => .error "assignment to entry in nil map"
  | some l => .ok (some (putAssoc l k v))

/-- `indexEntry.merge` exactly as the Go runtime executes it on decoded
entries: ranging over a nil map of `other` iterates zero times, but the first
assignment into a nil map of `entry` faults. -/
def mergeGoNil (entry other : GobEntry) : Except String GobEntry := do
  let ps ← (other.paths.getD []).foldlM goSetInsert entry.paths
  let at2 ← (other.attachments.getD []).foldlM
    (fun m kv => goMapPut m kv.1 kv.2) entry.attachments
  .ok { entry with paths := ps, attachments := at2 }

/-- The entry-level merge inside `SetUnion`/`SetIntersection` on two entries
that were stored with `putEntry` and read back with `decodeEntry`. -/
def mergeAfterStore (a b : IndexEntry) : Except String GobEntry :=
  mergeGoNil (gobRoundTrip a) (gobRoundTrip b)

/-- `putEntry` applied to a decoded entry: gob encodes a nil map and an empty
map identically (both are zero values and are omitted), so re-encoding
normalizes nil map fields back to empty ones. -/
def gobStore (g : GobEntry) : IndexEntry :=
  { paths := g.paths.getD [], attachments := g.attachments.getD [],
    size := g.size, timestamp := g.timestamp, contentType := g.contentType }

/-- The first cursor loop of `merge` as the Go runtime executes it on stored
entries: `decodeEntry` the iterated value, `getEntry` the other side, run the
nil-map-faulting `indexEntry.merge` when both exist, `putEntry` the result.  A
fault aborts the loop; inside `db.Update` it unwinds the transaction, so no
target is produced at all. -/
def mergeLoopAGo (second : BucketE) : BucketE → BucketE → Except String BucketE
  | [], target => .ok target
  | (hash, stored) :: rest, target =>
    match lookupA second hash with
    | some otherStored =>
      match mergeGoNil (gobRoundTrip stored) (gobRoundTrip otherStored) with
      | .error e => .error e
      | .ok merged => mergeLoopAGo second rest (putAssoc target hash (gobStore merged))
    | none =>
      mergeLoopAGo second rest (putAssoc target hash (gobStore (gobRoundTrip stored)))

/-- `merge(first, second, target)` into a fresh target with the gob round
trip of the stored entries made explicit: the faithful model of what
`SetUnion` executes.  The second loop copies raw bytes without decoding, so
it cannot fault and `mergeLoopB` models it exactly. -/
def mergeBucketsGo (first second : BucketE) : Except String BucketE :=
  match mergeLoopAGo second first [] with
  | .error e => .error e
  | .ok t1 => .ok (mergeLoopB first second t1)

/-! ## Concrete fixtures used by witness theorems -/

def entA : IndexEntry :=
  { paths := ["/a/1.txt"], attachments := [(".json", "/a/1.json")],
    size := 3, timestamp := 5, contentType := "text/plain" }

def entB : IndexEntry :=
  { paths := ["/b/1.txt"], attachments := [(".json", "/b/1.json")],
    size := 3, timestamp := 9, contentType := "text/plain" }

def entC : IndexEntry :=
  { paths := ["/c/2.txt"], attachments := [],
    size := 7, timestamp := 1, contentType := "text/plain" }

def entD : IndexEntry :=
  { paths := ["/b/2.txt", "/a/2.jpg"], attachments := [],
    size := 2, timestamp := 4, contentType := "image/jpeg" }

def entE : IndexEntry :=
  { paths := ["/b/2.txt", "/a/2.jpg"], attachments := [(".json", "/a/2.jpg.json")],
    size := 2, timestamp := 4, contentType := "image/jpeg" }

def fsE : FileSys := [("/a/2.jpg", [1, 2]), ("/a/2.jpg.json", [5])]

def entP : IndexEntry :=
  { paths := ["/a/photo.jpg"], attachments := [],
    size := 4, timestamp := 0, contentType := "image/jpeg" }

def entQ : IndexEntry :=
  { paths := ["/b/photo.jpg"], attachments := [(".json", "/b/photo.jpg.json")],
    size := 4, timestamp := 7, contentType := "image/jpeg" }

def bucketA : BucketE := [([1, 2], entA)]

def bucketB : BucketE := [([1, 2], entB), ([3, 4], entC)]

/-! ## Theorems -/

@[simp] theorem lookupA_nil {κ β : Type} [DecidableEq κ] (k : κ) :
    lookupA ([] : List (κ × β)) k = none := rfl

theorem lookupA_putAssoc_self {κ β : Type} [DecidableEq κ]
    (m : List (κ × β)) (k : κ) (v : β) : lookupA (putAssoc m k v) k = some v := by
  induction m with
  | nil => simp [putAssoc, lookupA]
  | cons kv rest ih =>
    obtain ⟨k0, v0⟩ := kv
    by_cases h : k0 = k
    · simp [putAssoc, h, lookupA]
    · simp [putAssoc, h, lookupA, ih]

theorem lookupA_putAssoc_ne {κ β : Type} [DecidableEq κ]
    (m : List (κ × β)) (k k' : κ) (v : β) (h : k' ≠ k) :
    lookupA (putAssoc m k v) k' = lookupA m k' := by
  have hkk : ¬ k = k' := fun hh => h hh.symm
  induction m with
  | nil => simp [putAssoc, lookupA, hkk]
  | cons kv rest ih =>
    obtain ⟨k0, v0⟩ := kv
    by_cases h0 : k0 = k
    · subst h0
      simp [putAssoc, lookupA, hkk]
    · simp [putAssoc, h0, lookupA, ih]

/-- Re-storing the value already present at a key leaves the list untouched. -/
theorem putAssoc_eq_self {κ β : Type} [DecidableEq κ]
    (m : List (κ × β)) (k : κ) (v : β) (h : lookupA m k = some v) :
    putAssoc m k v = m := by
  induction m with
  | nil => simp [lookupA] at h
  | cons kv rest ih =>
    obtain ⟨k0, v0⟩ := kv
    by_cases h0 : k0 = k
    · subst h0
      simp [lookupA] at h
      simp [putAssoc, h]
    · simp [lookupA, h0] at h
      simp [putAssoc, h0, ih h]

theorem mem_putAssoc {κ β : Type} [DecidableEq κ]
    (m : List (κ × β)) (k : κ) (v : β) (x : κ × β) (hx : x ∈ putAssoc m k v) :
    x = (k, v) ∨ x ∈ m := by
  induction m with
  | nil => simp [putAssoc] at hx; simp [hx]
  | cons kv rest ih =>
    obtain ⟨k0, v0⟩ := kv
    by_cases h0 : k0 = k
    · simp [putAssoc, h0] at hx
      rcases hx with h | h
      · exact Or.inl (by simp [h])
      · exact Or.inr (by simp [h])
    · simp [putAssoc, h0] at hx
      rcases hx with h | h
      · exact Or.inr (by simp [h])
      · rcases ih h with h' | h'
        · exact Or.inl h'
        · exact Or.inr (by simp [h'])

/-- Writing a fresh key and then removing it restores the original list:
the `os.CreateTemp` / `os.Remove` pair on a fresh temp name is a no-op. -/
theorem removeAssoc_putAssoc_fresh {κ β : Type} [DecidableEq κ]
    (m : List (κ × β)) (k : κ) (v : β) (h : lookupA m k = none) :
    removeAssoc (putAssoc m k v) k = m := by
  induction m with
  | nil => simp [putAssoc, removeAssoc]
  | cons kv rest ih =>
    obtain ⟨k0, v0⟩ := kv
    by_cases h0 : k0 = k
    · simp [lookupA, h0] at h
    · simp [lookupA, h0] at h
      simp [putAssoc, h0, removeAssoc, ih h]

/-- Keys absent from a lookup are exactly the keys not in the projection. -/
theorem lookupA_eq_none_of_not_mem {κ β : Type} [DecidableEq κ]
    (m : List (κ × β)) (k : κ) (h : k ∉ m.map Prod.fst) : lookupA m k = none := by
  induction m with
  | nil => rfl
  | cons kv rest ih =>
    obtain ⟨k0, v0⟩ := kv
    rw [List.map_cons] at h
    have h1 : ¬ k0 = k := by
      intro hh
      subst hh
      exact h (List.mem_cons_self _ _)
    have h2 : k ∉ rest.map Prod.fst := fun hh => h (List.mem_cons_of_mem _ hh)
    simp [lookupA, h1, ih h2]

theorem lookupA_isSome_of_mem {κ β : Type} [DecidableEq κ]
    (m : List (κ × β)) (x : κ × β) (hx : x ∈ m) : (lookupA m x.1).isSome = true := by
  induction m with
  | nil => simp at hx
  | cons kv rest ih =>
    obtain ⟨k0, v0⟩ := kv
    rcases List.mem_cons.mp hx with h | h
    · subst h; simp [lookupA]
    · by_cases h0 : k0 = x.1
      · simp [lookupA, h0]
      · simp [lookupA, h0, ih h]

theorem mem_insertPath (ps : List String) (p q : String) :
    q ∈ insertPath ps p ↔ q ∈ ps ∨ q = p := by
  by_cases h : p ∈ ps
  · simp only [insertPath, if_pos h]
    constructor
    · exact fun hq => Or.inl hq
    · rintro (hq | hq)
      · exact hq
      · exact hq ▸ h
  · simp [insertPath, if_neg h]

theorem insertPath_eq_of_mem (ps : List String) (p : String) (h : p ∈ ps) :
    insertPath ps p = ps := by
  simp [insertPath, h]

theorem insertPath_ne_nil (ps : List String) (p : String) : insertPath ps p ≠ [] := by
  by_cases h : p ∈ ps
  · simp only [insertPath, if_pos h]
    rintro rfl
    simp at h
  · simp [insertPath, h]

theorem foldl_insertPath_ne_nil (l : List String) (ps : List String) (h : ps ≠ []) :
    l.foldl insertPath ps ≠ [] := by
  induction l generalizing ps with
  | nil => simpa using h
  | cons a rest ih => exact ih (insertPath ps a) (insertPath_ne_nil ps a)

theorem mem_foldl_insertPath (l : List String) (ps : List String) (q : String) :
    q ∈ l.foldl insertPath ps ↔ q ∈ ps ∨ q ∈ l := by
  induction l generalizing ps with
  | nil => simp
  | cons a rest ih =>
    simp only [List.foldl_cons, ih, mem_insertPath, List.mem_cons]
    tauto

@[simp] theorem IndexEntry.merge_size (a b : IndexEntry) : (a.merge b).size = a.size := rfl

@[simp] theorem IndexEntry.merge_timestamp (a b : IndexEntry) :
    (a.merge b).timestamp = a.timestamp := rfl

@[simp] theorem IndexEntry.merge_contentType (a b : IndexEntry) :
    (a.merge b).contentType = a.contentType := rfl

theorem IndexEntry.merge_paths_mem (a b : IndexEntry) (p : String) :
    p ∈ (a.merge b).paths ↔ p ∈ a.paths ∨ p ∈ b.paths := by
  simp [IndexEntry.merge, mem_foldl_insertPath]

/-- Folding attachment writes for extensions other than `e` does not change the
value looked up at `e`. -/
theorem lookupA_foldl_putAssoc_of_not_mem (kvs : List (String × String))
    (m : List (String × String)) (e : String) (hnm : e ∉ kvs.map Prod.fst) :
    lookupA (kvs.foldl (fun acc kv => putAssoc acc kv.1 kv.2) m) e = lookupA m e := by
  induction kvs generalizing m with
  | nil => rfl
  | cons kv rest ih =>
    obtain ⟨k0, v0⟩ := kv
    rw [List.map_cons] at hnm
    have h1 : e ≠ k0 := fun hh => hnm (by rw [hh]; exact List.mem_cons_self _ _)
    have h2 : e ∉ rest.map Prod.fst := fun hh => hnm (List.mem_cons_of_mem _ hh)
    rw [List.foldl_cons, ih (putAssoc m k0 v0) h2, lookupA_putAssoc_ne m k0 e v0 h1]

/-- Looking up an attachment extension after folding `other`'s attachments in:
an extension carried by `other` (whose keys, as a Go map, are distinct) ends up
with `other`'s value. -/
theorem lookupA_foldl_putAssoc_of_mem (kvs : List (String × String))
    (m : List (String × String)) (e : String) (v : String)
    (hnd : (kvs.map Prod.fst).Nodup) (hl : lookupA kvs e = some v) :
    lookupA (kvs.foldl (fun acc kv => putAssoc acc kv.1 kv.2) m) e = some v := by
  induction kvs generalizing m with
  | nil => simp [lookupA] at hl
  | cons kv rest ih =>
    obtain ⟨k0, v0⟩ := kv
    rw [List.map_cons, List.nodup_cons] at hnd
    by_cases h0 : k0 = e
    · subst h0
      rw [lookupA, if_pos rfl] at hl
      have hv : v0 = v := by injection hl
      subst hv
      rw [List.foldl_cons,
        lookupA_foldl_putAssoc_of_not_mem rest (putAssoc m k0 v0) k0 hnd.1]
      exact lookupA_putAssoc_self m k0 v0
    · rw [lookupA, if_neg h0] at hl
      rw [List.foldl_cons]
      exact ih (putAssoc m k0 v0) hnd.2 hl

/-- A colliding attachment extension takes `other`'s value after the merge. -/
theorem IndexEntry.merge_attach_of_mem_other (a b : IndexEntry) (e v : String)
    (hnd : (b.attachments.map Prod.fst).Nodup) (hb : lookupA b.attachments e = some v) :
    lookupA (a.merge b).attachments e = some v :=
  lookupA_foldl_putAssoc_of_mem b.attachments a.attachments e v hnd hb

theorem lookupA_mergeLoopA (second first target : BucketE) (k : Hash)
    (hnd : (first.map Prod.fst).Nodup) :
    lookupA (mergeLoopA second first target) k =
      match lookupA first k, lookupA second k with
      | some a, some b => some (a.merge b)
      | some a, none => some a
      | none, _ => lookupA target k := by
  induction first generalizing target with
  | nil => simp [mergeLoopA, lookupA]
  | cons kv rest ih =>
    obtain ⟨k0, v0⟩ := kv
    rw [List.map_cons, List.nodup_cons] at hnd
    rw [mergeLoopA, ih _ hnd.2]
    by_cases h0 : k0 = k
    · subst h0
      rw [lookupA_eq_none_of_not_mem rest k0 hnd.1]
      cases hsec : lookupA second k0 with
      | none =>
        simp [lookupA, hsec, lookupA_putAssoc_self]
      | some other =>
        simp [lookupA, hsec, lookupA_putAssoc_self]
    · have hl : lookupA ((k0, v0) :: rest) k = lookupA rest k := by
        rw [lookupA, if_neg h0]
      rw [hl]
      cases hrest : lookupA rest k with
      | none =>
        cases hsec : lookupA second k0 with
        | none => simp [lookupA_putAssoc_ne _ _ _ _ (fun hh => h0 hh.symm)]
        | some other => simp [lookupA_putAssoc_ne _ _ _ _ (fun hh => h0 hh.symm)]
      | some a => cases lookupA second k <;> rfl

theorem lookupA_mergeLoopB (first second target : BucketE) (k : Hash)
    (hnd : (second.map Prod.fst).Nodup) :
    lookupA (mergeLoopB first second target) k =
      match lookupA first k, lookupA second k with
      | none, some b => some b
      | _, _ => lookupA target k := by
  induction second generalizing target with
  | nil =>
    cases lookupA first k <;> simp [mergeLoopB, lookupA]
  | cons kv rest ih =>
    obtain ⟨k0, v0⟩ := kv
    rw [List.map_cons, List.nodup_cons] at hnd
    rw [mergeLoopB, ih _ hnd.2]
    by_cases h0 : k0 = k
    · subst h0
      rw [lookupA_eq_none_of_not_mem rest k0 hnd.1]
      cases hfst : lookupA first k0 with
      | none =>
        simp [lookupA, hfst, lookupA_putAssoc_self]
      | some a =>
        simp [lookupA, hfst]
    · have hl : lookupA ((k0, v0) :: rest) k = lookupA rest k := by
        rw [lookupA, if_neg h0]
      rw [hl]
      cases hrest : lookupA rest k with
      | none =>
        cases hfst0 : lookupA first k0 with
        | none =>
          cases hfst : lookupA first k <;>
            simp [hfst, lookupA_putAssoc_ne _ _ _ _ (fun hh => h0 hh.symm)]
        | some a =>
          cases hfst : lookupA first k <;> simp [hfst]
      | some b =>
        cases hfst : lookupA first k with
        | none => rfl
        | some a =>
          cases hfst0 : (lookupA first k0).isSome <;>
            simp [lookupA_putAssoc_ne _ _ _ _ (fun hh => h0 hh.symm)]

theorem lookupA_diffLoop {β : Type} (B A target : List (Hash × β)) (k : Hash)
    (hnd : (A.map Prod.fst).Nodup) :
    lookupA (diffLoop B A target) k =
      match lookupA A k, lookupA B k with
      | some a, none => some a
      | some _, some _ => lookupA target k
      | none, _ => lookupA target k := by
  induction A generalizing target with
  | nil => cases lookupA B k <;> simp [diffLoop, lookupA]
  | cons kv rest ih =>
    obtain ⟨k0, v0⟩ := kv
    rw [List.map_cons, List.nodup_cons] at hnd
    rw [diffLoop, ih _ hnd.2]
    by_cases h0 : k0 = k
    · subst h0
      rw [lookupA_eq_none_of_not_mem rest k0 hnd.1]
      cases hb : lookupA B k0 with
      | none => simp [lookupA, hb, lookupA_putAssoc_self]
      | some b => simp [lookupA, hb]
    · have hl : lookupA ((k0, v0) :: rest) k = lookupA rest k := by
        rw [lookupA, if_neg h0]
      rw [hl]
      cases hrest : lookupA rest k with
      | none =>
        cases hb0 : (lookupA B k0).isSome <;>
          cases hb : lookupA B k <;>
            simp [lookupA_putAssoc_ne _ _ _ _ (fun hh => h0 hh.symm)]
      | some a =>
        cases hb0 : (lookupA B k0).isSome <;>
          cases hb : lookupA B k <;>
            simp [lookupA_putAssoc_ne _ _ _ _ (fun hh => h0 hh.symm)]

/-- The intended entry-level result of `merge` into a fresh target — the
union semantics the spec states, realized by the totalized `mergeBuckets`:
the key set is exactly keys(A) ∪ keys(B), an overlapping key holds the
entry-level merge, and a single-source key holds that source's entry.  The
runtime deviates from this on reachable stored entries (see the fault-aware
`mergeBucketsGo`). -/
theorem lookupA_mergeBuckets (A B : BucketE)
    (hA : (A.map Prod.fst).Nodup) (hB : (B.map Prod.fst).Nodup) :
    ∀ k : Hash, lookupA (mergeBuckets A B) k =
      match lookupA A k, lookupA B k with
      | some a, some b => some (a.merge b)
      | some a, none => some a
      | none, some b => some b
      | none, none => none := by
  intro k
  rw [mergeBuckets, lookupA_mergeLoopB A B _ k hB, lookupA_mergeLoopA B A [] k hA]
  cases lookupA A k <;> cases lookupA B k <;> rfl

/-- Claim C1 evaluated at its failing input: `merge` run as the Go runtime
does, with the gob round trip of the stored entries explicit, faults with the
nil-map panic on a reachable pair of source indexes — a plainly indexed entry
(stored Attachments map empty, decoding to a nil map) shares its hash with a
takeout-indexed entry carrying an attachment — so the write transaction
unwinds and SetUnion produces no target at all, where the claim asserts a
target holding the merged entry.  The second conjunct shows the same pair
without the overlap completes with the verbatim copies, so the fault is
specific to the merge of an overlapping key. -/
theorem claim_C1 :
    mergeBucketsGo [([1, 2], entP)] [([1, 2], entQ), ([3, 4], entC)]
      = .error "assignment to entry in nil map"
    ∧ mergeBucketsGo [([1, 2], entP)] [([3, 4], entC)]
      = .ok [([1, 2], entP), ([3, 4], entC)] :=
  ⟨rfl, rfl⟩

/-- Inserting a key absent from the list appends it at the end. -/
theorem putAssoc_map_fst_fresh {κ β : Type} [DecidableEq κ]
    (m : List (κ × β)) (k : κ) (v : β) (h : lookupA m k = none) :
    (putAssoc m k v).map Prod.fst = m.map Prod.fst ++ [k] := by
  induction m with
  | nil => rfl
  | cons kv rest ih =>
    obtain ⟨k0, v0⟩ := kv
    by_cases h0 : k0 = k
    · simp [lookupA, h0] at h
    · simp [lookupA, h0] at h
      simp [putAssoc, h0, ih h]

/-- The key sequence the `SetDifference` loop writes is exactly A's cursor
order restricted to the keys absent from B. -/
theorem diffLoop_keys {β : Type} (B A t : List (Hash × β))
    (hnd : (A.map Prod.fst).Nodup)
    (hdisj : ∀ k ∈ A.map Prod.fst, lookupA t k = none) :
    (diffLoop B A t).map Prod.fst
      = t.map Prod.fst ++ (A.map Prod.fst).filter (fun k => (lookupA B k).isNone) := by
  induction A generalizing t with
  | nil => simp [diffLoop]
  | cons kv rest ih =>
    obtain ⟨k0, v0⟩ := kv
    rw [List.map_cons, List.nodup_cons] at hnd
    have hk0t : lookupA t k0 = none := by
      refine hdisj k0 ?_
      rw [List.map_cons]
      exact List.mem_cons_self _ _
    have hdisjr : ∀ k ∈ rest.map Prod.fst, lookupA t k = none := fun k hk => by
      refine hdisj k ?_
      rw [List.map_cons]
      exact List.mem_cons_of_mem _ hk
    rw [diffLoop, List.map_cons, List.filter_cons]
    by_cases hb : (lookupA B k0).isSome = true
    · have hbn : ((lookupA B k0).isNone = true) = False := by
        cases hx : lookupA B k0 with
        | none => rw [hx] at hb; simp at hb
        | some v => simp
      rw [if_pos hb, if_neg (by rw [hbn]; exact not_false), ih t hnd.2 hdisjr]
    · have hbn : (lookupA B k0).isNone = true := by
        cases hx : lookupA B k0 with
        | none => simp
        | some v => rw [hx] at hb; simp at hb
      have hdisj2 : ∀ k ∈ rest.map Prod.fst, lookupA (putAssoc t k0 v0) k = none := by
        intro k hk
        have hne : k ≠ k0 := by
          intro hh
          subst hh
          exact hnd.1 hk
        rw [lookupA_putAssoc_ne t k0 k v0 hne]
        exact hdisjr k hk
      rw [if_neg hb, if_pos hbn, ih (putAssoc t k0 v0) hnd.2 hdisj2,
        putAssoc_map_fst_fresh t k0 v0 hk0t]
      simp

/-- Claim C5: `SetDifference` into a fresh target keeps exactly the keys of A
absent from B — the written key sequence is A's cursor order filtered by
absence from B, and every lookup agrees — and a surviving key maps to A's
stored value moved verbatim: the loop is polymorphic in the stored value, so
the very bytes of A's encoded entry are copied, with no decode, no merge and
no re-encoding.  At the store level, the operation run against a fresh target
name succeeds and the target namespace holds precisely that loop's result. -/
theorem claim_C5 {β : Type} (A B : List (Hash × β)) (hA : (A.map Prod.fst).Nodup)
    (db : Store) (t a b : String) (bA bB : BucketE)
    (ht : t ≠ "") (ha : a ≠ "") (hb : b ≠ "")
    (hfresh : storeHasIndex db t = false)
    (hlA : lookupA db a = some bA) (hlB : lookupA db b = some bB) :
    ((diffBuckets A B).map Prod.fst
      = (A.map Prod.fst).filter (fun k => (lookupA B k).isNone))
    ∧ (∀ k : Hash,
        lookupA (diffBuckets A B) k =
          (match lookupA A k, lookupA B k with
           | some v, none => some v
           | _, _ => none)
        ∧ ((lookupA (diffBuckets A B) k).isSome ↔
            ((lookupA A k).isSome ∧ lookupA B k = none)))
    ∧ lookupA (setDifferenceGo db t a b).1 t = some (diffBuckets bA bB)
    ∧ (setDifferenceGo db t a b).2 = none := by
  refine ⟨?_, fun k => ?_, ?_, ?_⟩
  · rw [diffBuckets, diffLoop_keys B A [] hA (fun k _ => rfl)]
    rfl
  · have h : lookupA (diffBuckets A B) k =
        match lookupA A k, lookupA B k with
        | some v, none => some v
        | some _, some _ => lookupA ([] : List (Hash × β)) k
        | none, _ => lookupA ([] : List (Hash × β)) k := by
      rw [diffBuckets]
      exact lookupA_diffLoop B A [] k hA
    constructor
    · rw [h]; cases lookupA A k <;> cases lookupA B k <;> rfl
    · rw [h]; cases lookupA A k <;> cases lookupA B k <;> simp
  · rw [setDifferenceGo, if_neg ht, if_neg ha, if_neg hb, setOpBody, hfresh]
    dsimp only
    rw [hlA, hlB]
    dsimp only [Option.getD, runUpdate]
    exact lookupA_putAssoc_self _ t _
  · rw [setDifferenceGo, if_neg ht, if_neg ha, if_neg hb, setOpBody, hfresh]
    rfl

theorem claim_C5_witness :
    (diffBuckets [([1, 2], 10), ([3, 4], 20)] [([1, 2], 99)]).map Prod.fst = [[3, 4]]
    ∧ lookupA (diffBuckets [([1, 2], 10), ([3, 4], 20)] [([1, 2], 99)]) [3, 4] = some 20
    ∧ lookupA (diffBuckets [([1, 2], 10), ([3, 4], 20)] [([1, 2], 99)]) [1, 2] = none
    ∧ lookupA (setDifferenceGo [("A", bucketA), ("B", bucketB)] "AminusB" "A" "B").1
        "AminusB" = some (diffBuckets bucketA bucketB)
    ∧ (setDifferenceGo [("A", bucketA), ("B", bucketB)] "AminusB" "A" "B").2 = none := by
  have h := claim_C5 [([1, 2], 10), ([3, 4], 20)] [([1, 2], 99)] (by decide)
    [("A", bucketA), ("B", bucketB)] "AminusB" "A" "B" bucketA bucketB
    (by decide) (by decide) (by decide) (by decide) (by decide) (by decide)
  exact ⟨h.1.trans (by decide), ((h.2.1 [3, 4]).1).trans (by decide),
    ((h.2.1 [1, 2]).1).trans (by decide), h.2.2.1, h.2.2.2⟩

/-- Claim C7: for every pair of entries, `indexEntry.merge` leaves the size,
timestamp and content-type of the receiver exactly as they were, so only the
path set and the attachments map can change; an attachment extension present
in both entries ends up with the other entry's value. -/
theorem claim_C7 (a b : IndexEntry) (e va vb : String)
    (hnd : (b.attachments.map Prod.fst).Nodup)
    (_ha : lookupA a.attachments e = some va)
    (hb : lookupA b.attachments e = some vb) :
    (a.merge b).size = a.size
    ∧ (a.merge b).timestamp = a.timestamp
    ∧ (a.merge b).contentType = a.contentType
    ∧ lookupA (a.merge b).attachments e = some vb :=
  ⟨rfl, rfl, rfl, IndexEntry.merge_attach_of_mem_other a b e vb hnd hb⟩

theorem claim_C7_witness :
    (entA.merge entB).size = entA.size
    ∧ (entA.merge entB).timestamp = entA.timestamp
    ∧ (entA.merge entB).contentType = entA.contentType
    ∧ lookupA (entA.merge entB).attachments ".json" = some "/b/1.json" :=
  claim_C7 entA entB ".json" "/a/1.json" "/b/1.json" (by decide) (by decide) (by decide)

theorem listLeB_total (as bs : List Char) : listLeB as bs = true ∨ listLeB bs as = true := by
  induction as generalizing bs with
  | nil => exact Or.inl rfl
  | cons a as ih =>
    cases bs with
    | nil => exact Or.inr rfl
    | cons b bs =>
      rcases lt_trichotomy a b with h | h | h
      · exact Or.inl (by simp [listLeB, h])
      · subst h
        rcases ih bs with h2 | h2
        · exact Or.inl (by simp [listLeB, h2])
        · exact Or.inr (by simp [listLeB, h2])
      · exact Or.inr (by simp [listLeB, h])

theorem listLeB_antisymm (as bs : List Char) (h1 : listLeB as bs = true)
    (h2 : listLeB bs as = true) : as = bs := by
  induction as generalizing bs with
  | nil =>
    cases bs with
    | nil => rfl
    | cons b bs => simp [listLeB] at h2
  | cons a as ih =>
    cases bs with
    | nil => simp [listLeB] at h1
    | cons b bs =>
      rcases lt_trichotomy a b with h | h | h
      · simp [listLeB, h, asymm h] at h2
      · subst h
        simp [listLeB, lt_irrefl] at h1 h2
        rw [ih bs h1 h2]
      · simp [listLeB, h, asymm h] at h1

theorem listLeB_trans (as bs cs : List Char) (h1 : listLeB as bs = true)
    (h2 : listLeB bs cs = true) : listLeB as cs = true := by
  induction as generalizing bs cs with
  | nil => rfl
  | cons a as ih =>
    cases bs with
    | nil => simp [listLeB] at h1
    | cons b bs =>
      cases cs with
      | nil => simp [listLeB] at h2
      | cons c cs =>
        rcases lt_trichotomy a b with hab | hab | hab
        · rcases lt_trichotomy b c with hbc | hbc | hbc
          · simp [listLeB, lt_trans hab hbc]
          · subst hbc; simp [listLeB, hab]
          · simp [listLeB, hbc, asymm hbc] at h2
        · subst hab
          simp [listLeB, lt_irrefl] at h1
          rcases lt_trichotomy a c with hac | hac | hac
          · simp [listLeB, hac]
          · subst hac
            simp [listLeB, lt_irrefl] at h2
            simp [listLeB, lt_irrefl, ih bs cs h1 h2]
          · simp [listLeB, hac, asymm hac] at h2
        · simp [listLeB, hab, asymm hab] at h1

instance : IsTotal String strLe := ⟨fun a b => listLeB_total a.data b.data⟩

instance : IsTrans String strLe := ⟨fun a b c => listLeB_trans a.data b.data c.data⟩

instance : IsAntisymm String strLe :=
  ⟨fun a b h1 h2 => String.ext (listLeB_antisymm a.data b.data h1 h2)⟩

theorem sortStrings_perm (l : List String) : (sortStrings l).Perm l :=
  List.perm_insertionSort strLe l

theorem sortStrings_sorted (l : List String) : (sortStrings l).Sorted strLe :=
  List.sorted_insertionSort strLe l

/-- Sorting the path set depends only on the set of paths, not on the order a
Go map range or a tree walk happened to present them in. -/
theorem sortStrings_eq_of_perm (l l' : List String) (h : l.Perm l') :
    sortStrings l = sortStrings l' :=
  List.eq_of_perm_of_sorted
    ((sortStrings_perm l).trans (h.trans (sortStrings_perm l').symm))
    (sortStrings_sorted l) (sortStrings_sorted l')

/-- Claim C3: SetUnion, SetIntersection and SetDifference invoked with a
target index name that already exists fail with the target-already-exists
error; the check runs inside the write transaction that would create the
target, and the error rolls that transaction back, so the store comes out
unchanged and no data is written. -/
theorem claim_C3 (db : Store) (t a b : String)
    (ht : t ≠ "") (ha : a ≠ "") (hb : b ≠ "") (hex : storeHasIndex db t = true) :
    setUnionGo db t a b = (db, some "target index already exists")
    ∧ setIntersectionGo db t a b = (db, some "target index already exists")
    ∧ setDifferenceGo db t a b = (db, some "target index already exists") := by
  refine ⟨?_, ?_, ?_⟩ <;>
    simp [setUnionGo, setIntersectionGo, setDifferenceGo, setOpBody, hex, ht, ha, hb,
      runUpdate]

theorem claim_C3_witness :
    setUnionGo [("existing", bucketA)] "existing" "x" "y"
      = ([("existing", bucketA)], some "target index already exists")
    ∧ setIntersectionGo [("existing", bucketA)] "existing" "x" "y"
      = ([("existing", bucketA)], some "target index already exists")
    ∧ setDifferenceGo [("existing", bucketA)] "existing" "x" "y"
      = ([("existing", bucketA)], some "target index already exists") :=
  claim_C3 [("existing", bucketA)] "existing" "x" "y"
    (by decide) (by decide) (by decide) (by decide)

/-- Claim C4 counterexample: at a state where a store file already exists,
`CreateDB` succeeds — `bolt.Open` opens the existing file — instead of
failing as the claim demands. -/
theorem claim_C4_counterexample :
    createDB (some [("photos", bucketA)]) = .ok (some [("photos", bucketA)]) := rfl

/-- Claim C4 as amended: `CreateDB` succeeds whether or not a store file
exists — with no file it creates a new empty store, and with an existing file
it opens and closes it, leaving its contents unchanged (never clobbered) —
while every other operation's `getDB` fails with not-initialized when no
store file exists. -/
theorem claim_C4 :
    createDB none = .ok (some [])
    ∧ (∀ s : Store, createDB (some s) = .ok (some s))
    ∧ getDBGo none = .error "venn has not been initialized" :=
  ⟨rfl, fun _ => rfl, rfl⟩

/-- Claim C10 evaluated at its failing input: an entry stored with an empty
Attachments map decodes with a nil map (gob omits zero-valued fields), and
the entry-level merge inside SetUnion/SetIntersection faults on its first
assignment into that nil map when the other entry carries an attachment,
instead of completing. -/
theorem claim_C10 :
    mergeAfterStore
      { paths := ["/a/photo.jpg"], attachments := [], size := 4, timestamp := 0,
        contentType := "image/jpeg" }
      { paths := ["/b/photo.jpg"], attachments := [(".json", "/b/photo.jpg.json")],
        size := 4, timestamp := 7, contentType := "image/jpeg" }
      = .error "assignment to entry in nil map" := rfl

/-- The entry built by `makeFileEntry` always records the file's own path. -/
theorem indexFile_self (hfn : List Nat → Hash) (sniff : List Nat → String)
    (b : BucketE) (f : FileMeta) :
    ∃ e, lookupA (indexFile hfn sniff b f) (hfn f.content) = some e
      ∧ f.path ∈ e.paths := by
  refine ⟨(makeFileEntry hfn sniff b f).2, ?_, ?_⟩
  · exact lookupA_putAssoc_self b (hfn f.content) _
  · unfold makeFileEntry
    exact (mem_insertPath _ _ _).mpr (Or.inr rfl)

/-- A path recorded for a hash survives any later `indexFile` step: the step
only ever adds paths. -/
theorem pathMem_indexFile (hfn : List Nat → Hash) (sniff : List Nat → String)
    (b : BucketE) (f : FileMeta) (k : Hash) (e : IndexEntry) (p : String)
    (hl : lookupA b k = some e) (hp : p ∈ e.paths) :
    ∃ e2, lookupA (indexFile hfn sniff b f) k = some e2 ∧ p ∈ e2.paths := by
  by_cases hk : hfn f.content = k
  · subst hk
    have hpaths : (makeFileEntry hfn sniff b f).2.paths = insertPath e.paths f.path := by
      unfold makeFileEntry
      dsimp only
      rw [hl]
    refine ⟨(makeFileEntry hfn sniff b f).2, lookupA_putAssoc_self b _ _, ?_⟩
    rw [hpaths]
    exact (mem_insertPath _ _ _).mpr (Or.inl hp)
  · refine ⟨e, ?_, hp⟩
    rw [show indexFile hfn sniff b f
        = putAssoc b (hfn f.content) (makeFileEntry hfn sniff b f).2 from rfl]
    rw [lookupA_putAssoc_ne b (hfn f.content) k _ (fun hh => hk hh.symm)]
    exact hl

theorem pathMem_indexFiles (hfn : List Nat → Hash) (sniff : List Nat → String)
    (files : List FileMeta) (b : BucketE) (k : Hash) (e : IndexEntry) (p : String)
    (hl : lookupA b k = some e) (hp : p ∈ e.paths) :
    ∃ e2, lookupA (indexFiles hfn sniff files b) k = some e2 ∧ p ∈ e2.paths := by
  induction files generalizing b e with
  | nil => exact ⟨e, hl, hp⟩
  | cons f rest ih =>
    obtain ⟨e1, hl1, hp1⟩ := pathMem_indexFile hfn sniff b f k e p hl hp
    exact ih (indexFile hfn sniff b f) e1 hl1 hp1

/-- After one indexing pass, every walked file's path sits in the entry of its
content hash. -/
theorem indexFiles_covers (hfn : List Nat → Hash) (sniff : List Nat → String)
    (files : List FileMeta) (b : BucketE) :
    ∀ f ∈ files, ∃ e, lookupA (indexFiles hfn sniff files b) (hfn f.content) = some e
      ∧ f.path ∈ e.paths := by
  induction files generalizing b with
  | nil => intro f hf; simp at hf
  | cons f0 rest ih =>
    intro f hf
    rcases List.mem_cons.mp hf with hf0 | hfr
    · subst hf0
      obtain ⟨e1, hl1, hp1⟩ := indexFile_self hfn sniff b f
      exact pathMem_indexFiles hfn sniff rest (indexFile hfn sniff b f) _ e1 f.path hl1 hp1
    · exact ih (indexFile hfn sniff b f0) f hfr

/-- Indexing a file whose hash already holds this path writes the identical
entry back, leaving the bucket untouched. -/
theorem indexFiles_second_id (hfn : List Nat → Hash) (sniff : List Nat → String)
    (files : List FileMeta) (b : BucketE)
    (hcov : ∀ f ∈ files, ∃ e, lookupA b (hfn f.content) = some e ∧ f.path ∈ e.paths) :
    indexFiles hfn sniff files b = b := by
  induction files with
  | nil => rfl
  | cons f0 rest ih =>
    obtain ⟨e, hl, hp⟩ := hcov f0 (List.mem_cons_self _ _)
    have hmk : makeFileEntry hfn sniff b f0 = (hfn f0.content, e) := by
      unfold makeFileEntry
      dsimp only
      rw [hl, insertPath_eq_of_mem e.paths f0.path hp]
    have hstep : indexFile hfn sniff b f0 = b := by
      rw [show indexFile hfn sniff b f0
          = putAssoc b (makeFileEntry hfn sniff b f0).1 (makeFileEntry hfn sniff b f0).2
          from rfl, hmk]
      exact putAssoc_eq_self b (hfn f0.content) e hl
    rw [show indexFiles hfn sniff (f0 :: rest) b
        = indexFiles hfn sniff rest (indexFile hfn sniff b f0) from rfl, hstep]
    exact ih (fun f hf => hcov f (List.mem_cons_of_mem _ hf))

/-- Claim C8: indexing an unchanged tree into the same index a second time
changes nothing observable — the resulting bucket is the very same list, so
the entry count and every entry's path set agree with the first run. -/
theorem claim_C8 (hfn : List Nat → Hash) (sniff : List Nat → String)
    (files : List FileMeta) (b : BucketE) :
    (indexFiles hfn sniff files (indexFiles hfn sniff files b)).length
      = (indexFiles hfn sniff files b).length
    ∧ ∀ k : Hash,
        (lookupA (indexFiles hfn sniff files (indexFiles hfn sniff files b)) k).map
            IndexEntry.paths
          = (lookupA (indexFiles hfn sniff files b) k).map IndexEntry.paths := by
  have hid : indexFiles hfn sniff files (indexFiles hfn sniff files b)
      = indexFiles hfn sniff files b :=
    indexFiles_second_id hfn sniff files _ (indexFiles_covers hfn sniff files b)
  rw [hid]
  exact ⟨rfl, fun _ => rfl⟩

theorem allNonEmpty_iff (b : BucketE) :
    allNonEmpty b = true ↔ ∀ kv ∈ b, kv.2.paths ≠ [] := by
  simp [allNonEmpty, List.all_eq_true, List.isEmpty_iff]

theorem allNonEmpty_indexFile (hfn : List Nat → Hash) (sniff : List Nat → String)
    (b : BucketE) (f : FileMeta) (hb : allNonEmpty b = true) :
    allNonEmpty (indexFile hfn sniff b f) = true := by
  rw [allNonEmpty_iff] at hb ⊢
  intro kv hkv
  rcases mem_putAssoc b (hfn f.content) (makeFileEntry hfn sniff b f).2 kv hkv with h | h
  · rw [h]
    exact insertPath_ne_nil _ _
  · exact hb kv h

theorem allNonEmpty_indexFiles (hfn : List Nat → Hash) (sniff : List Nat → String)
    (files : List FileMeta) (b : BucketE) (hb : allNonEmpty b = true) :
    allNonEmpty (indexFiles hfn sniff files b) = true := by
  induction files generalizing b with
  | nil => exact hb
  | cons f rest ih => exact ih _ (allNonEmpty_indexFile hfn sniff b f hb)

theorem allNonEmpty_indexTakeoutFile (hfn : List Nat → Hash) (sniff : List Nat → String)
    (stat : String → Bool) (getTs : String → Option Int)
    (b : BucketE) (f : FileMeta) (hb : allNonEmpty b = true) :
    allNonEmpty (indexTakeoutFile hfn sniff stat getTs b f) = true := by
  unfold indexTakeoutFile
  by_cases hskip : (f.path.endsWith ".json" && stat (trimSuffix f.path ".json")) = true
  · rw [if_pos hskip]; exact hb
  · rw [if_neg hskip]
    rw [allNonEmpty_iff] at hb ⊢
    intro kv hkv
    rcases mem_putAssoc b _ _ kv hkv with h | h
    · rw [h]
      dsimp only
      by_cases hst : stat (f.path ++ ".json") = true
      · rw [if_pos hst]
        cases getTs (f.path ++ ".json") <;> exact insertPath_ne_nil _ _
      · rw [if_neg hst]
        exact insertPath_ne_nil _ _
    · exact hb kv h

theorem allNonEmpty_indexTakeoutFiles (hfn : List Nat → Hash) (sniff : List Nat → String)
    (stat : String → Bool) (getTs : String → Option Int)
    (files : List FileMeta) (b : BucketE) (hb : allNonEmpty b = true) :
    allNonEmpty (indexTakeoutFiles hfn sniff stat getTs files b) = true := by
  induction files generalizing b with
  | nil => exact hb
  | cons f rest ih =>
    rw [indexTakeoutFiles, List.foldl_cons]
    have h2 := ih (indexTakeoutFile hfn sniff stat getTs b f)
      (allNonEmpty_indexTakeoutFile hfn sniff stat getTs b f hb)
    rw [indexTakeoutFiles] at h2
    exact h2

/-- A merged entry inherits a non-empty path set from the first operand. -/
theorem merge_paths_ne_nil (a b : IndexEntry) (ha : a.paths ≠ []) :
    (a.merge b).paths ≠ [] :=
  foldl_insertPath_ne_nil b.paths a.paths ha

theorem nonEmpty_mergeLoopA (second A t : BucketE)
    (hA : ∀ kv ∈ A, kv.2.paths ≠ []) (ht : ∀ kv ∈ t, kv.2.paths ≠ []) :
    ∀ kv ∈ mergeLoopA second A t, kv.2.paths ≠ [] := by
  induction A generalizing t with
  | nil => exact ht
  | cons kv0 rest ih =>
    obtain ⟨k0, v0⟩ := kv0
    have hv0 : v0.paths ≠ [] := hA (k0, v0) (List.mem_cons_self _ _)
    refine ih _ (fun kv hkv => hA kv (List.mem_cons_of_mem _ hkv)) ?_
    intro kv hkv
    cases hsec : lookupA second k0 with
    | some other =>
      rw [hsec] at hkv
      rcases mem_putAssoc t k0 (v0.merge other) kv hkv with h | h
      · rw [h]; exact merge_paths_ne_nil v0 other hv0
      · exact ht kv h
    | none =>
      rw [hsec] at hkv
      rcases mem_putAssoc t k0 v0 kv hkv with h | h
      · rw [h]; exact hv0
      · exact ht kv h

theorem nonEmpty_mergeLoopB (first B t : BucketE)
    (hB : ∀ kv ∈ B, kv.2.paths ≠ []) (ht : ∀ kv ∈ t, kv.2.paths ≠ []) :
    ∀ kv ∈ mergeLoopB first B t, kv.2.paths ≠ [] := by
  induction B generalizing t with
  | nil => exact ht
  | cons kv0 rest ih =>
    obtain ⟨k0, v0⟩ := kv0
    have hv0 : v0.paths ≠ [] := hB (k0, v0) (List.mem_cons_self _ _)
    refine ih _ (fun kv hkv => hB kv (List.mem_cons_of_mem _ hkv)) ?_
    intro kv hkv
    by_cases hf : (lookupA first k0).isSome = true
    · rw [if_pos hf] at hkv
      exact ht kv hkv
    · rw [if_neg hf] at hkv
      rcases mem_putAssoc t k0 v0 kv hkv with h | h
      · rw [h]; exact hv0
      · exact ht kv h

theorem nonEmpty_intersectLoop (second A t : BucketE)
    (hA : ∀ kv ∈ A, kv.2.paths ≠ []) (ht : ∀ kv ∈ t, kv.2.paths ≠ []) :
    ∀ kv ∈ intersectLoop second A t, kv.2.paths ≠ [] := by
  induction A generalizing t with
  | nil => exact ht
  | cons kv0 rest ih =>
    obtain ⟨k0, v0⟩ := kv0
    have hv0 : v0.paths ≠ [] := hA (k0, v0) (List.mem_cons_self _ _)
    refine ih _ (fun kv hkv => hA kv (List.mem_cons_of_mem _ hkv)) ?_
    intro kv hkv
    cases hsec : lookupA second k0 with
    | some other =>
      rw [hsec] at hkv
      rcases mem_putAssoc t k0 (v0.merge other) kv hkv with h | h
      · rw [h]; exact merge_paths_ne_nil v0 other hv0
      · exact ht kv h
    | none =>
      rw [hsec] at hkv
      exact ht kv hkv

theorem nonEmpty_diffLoop (B A t : BucketE)
    (hA : ∀ kv ∈ A, kv.2.paths ≠ []) (ht : ∀ kv ∈ t, kv.2.paths ≠ []) :
    ∀ kv ∈ diffLoop B A t, kv.2.paths ≠ [] := by
  induction A generalizing t with
  | nil => exact ht
  | cons kv0 rest ih =>
    obtain ⟨k0, v0⟩ := kv0
    have hv0 : v0.paths ≠ [] := hA (k0, v0) (List.mem_cons_self _ _)
    refine ih _ (fun kv hkv => hA kv (List.mem_cons_of_mem _ hkv)) ?_
    intro kv hkv
    by_cases hb : (lookupA B k0).isSome = true
    · rw [if_pos hb] at hkv
      exact ht kv hkv
    · rw [if_neg hb] at hkv
      rcases mem_putAssoc t k0 v0 kv hkv with h | h
      · rw [h]; exact hv0
      · exact ht kv h

/-- Claim C9: every entry persisted into the store has a non-empty path set.
The indexer (plain or takeout variant) only ever inserts the indexed file's
own path before writing, and the set operations only write entries taken or
merged from their sources, so the invariant is established by indexing and
preserved by union, intersection and difference. -/
theorem claim_C9 (hfn : List Nat → Hash) (sniff : List Nat → String)
    (stat : String → Bool) (getTs : String → Option Int)
    (files : List FileMeta) (A B b : BucketE)
    (hA : allNonEmpty A = true) (hB : allNonEmpty B = true)
    (hb : allNonEmpty b = true) :
    allNonEmpty (indexFiles hfn sniff files b) = true
    ∧ allNonEmpty (indexTakeoutFiles hfn sniff stat getTs files b) = true
    ∧ allNonEmpty (mergeBuckets A B) = true
    ∧ allNonEmpty (intersectBuckets A B) = true
    ∧ allNonEmpty (diffBuckets A B) = true := by
  rw [allNonEmpty_iff] at hA hB
  refine ⟨allNonEmpty_indexFiles hfn sniff files b hb,
    allNonEmpty_indexTakeoutFiles hfn sniff stat getTs files b hb, ?_, ?_, ?_⟩
  · rw [allNonEmpty_iff]
    exact nonEmpty_mergeLoopB A B _ hB
      (nonEmpty_mergeLoopA B A [] hA (by intro kv hkv; simp at hkv))
  · rw [allNonEmpty_iff]
    exact nonEmpty_intersectLoop B A [] hA (by intro kv hkv; simp at hkv)
  · rw [allNonEmpty_iff]
    exact nonEmpty_diffLoop B A [] hA (by intro kv hkv; simp at hkv)

theorem claim_C9_witness :
    allNonEmpty (indexFiles (fun l => l) (fun _ => "text/plain")
      [{ path := "/a/1.txt", content := [9], size := 1, mtime := 0 }] []) = true
    ∧ allNonEmpty (indexTakeoutFiles (fun l => l) (fun _ => "text/plain")
        (fun _ => false) (fun _ => none)
        [{ path := "/a/1.txt", content := [9], size := 1, mtime := 0 }] []) = true
    ∧ allNonEmpty (mergeBuckets bucketA bucketB) = true
    ∧ allNonEmpty (intersectBuckets bucketA bucketB) = true
    ∧ allNonEmpty (diffBuckets bucketA bucketB) = true :=
  claim_C9 (fun l => l) (fun _ => "text/plain") (fun _ => false) (fun _ => none)
    [{ path := "/a/1.txt", content := [9], size := 1, mtime := 0 }]
    bucketA bucketB [] (by decide) (by decide) (by decide)

theorem pathJoin_ne_empty (a b : String) : pathJoin a b ≠ "" := by
  intro h
  have hlen := congrArg String.length h
  rw [pathJoin] at hlen
  simp only [String.length_append, show ("" : String).length = 0 from rfl,
    show ("/" : String).length = 1 from rfl] at hlen
  omega

theorem copyFileWithHash_stale (hfn : List Nat → Hash) (tmpName : String)
    (hash : Hash) (src dst : String) (fs : FileSys) (content : List Nat)
    (hhash : hash ≠ []) (hsrc : src ≠ "") (hdst : dst ≠ "")
    (hopen : lookupA fs src = some content)
    (hmis : hfn content ≠ hash)
    (htmp : lookupA fs tmpName = none) :
    copyFileWithHash hfn tmpName hash src dst fs
      = (fs, some "hash mismatch: index is stale") := by
  unfold copyFileWithHash
  rw [if_neg hhash, if_neg hsrc, if_neg hdst, hopen]
  dsimp only
  rw [if_neg hmis, removeAssoc_putAssoc_fresh fs tmpName content htmp]

theorem copyFileWithHash_ok (hfn : List Nat → Hash) (tmpName : String)
    (hash : Hash) (src dst : String) (fs : FileSys) (content : List Nat)
    (hhash : hash ≠ []) (hsrc : src ≠ "") (hdst : dst ≠ "")
    (hopen : lookupA fs src = some content)
    (hmatch : hfn content = hash)
    (htmp : lookupA fs tmpName = none) :
    copyFileWithHash hfn tmpName hash src dst fs
      = (putAssoc fs dst content, none) := by
  unfold copyFileWithHash
  rw [if_neg hhash, if_neg hsrc, if_neg hdst, hopen]
  dsimp only
  rw [if_pos hmatch, removeAssoc_putAssoc_fresh fs tmpName content htmp]

theorem materializeIndexOp_store (hfn : List Nat → Hash) (mkTmp : String → String)
    (db : Store) (nm rt : String) (fs : FileSys) :
    (materializeIndexOp hfn mkTmp db nm rt fs).1 = db := by
  unfold materializeIndexOp
  cases lookupA db nm <;> rfl

theorem materializeEntry_stale (hfn : List Nat → Hash) (mkTmp : String → String)
    (root : String) (hash : Hash) (entry : IndexEntry) (fs : FileSys)
    (src : String) (rest : List String) (content : List Nat)
    (hsort : sortStrings entry.paths = src :: rest)
    (hsrc : src ≠ "") (hhash : hash ≠ [])
    (hopen : lookupA fs src = some content)
    (hmis : hfn content ≠ hash)
    (hdst : lookupA fs (primaryDest root hash entry) = none)
    (htmp : lookupA fs (mkTmp (primaryDest root hash entry)) = none) :
    materializeEntry hfn mkTmp root hash entry fs
      = (fs, some "hash mismatch: index is stale") := by
  have hpd : primaryDest root hash entry
      = pathJoin (pathJoin (pathJoin root (hexByte (hash.getD 0 0)))
          (hexByte (hash.getD 1 0)))
          (hexBytes hash ++ extClean src) := by
    rw [primaryDest, hsort]
    rfl
  have hdstne : primaryDest root hash entry ≠ "" := by
    rw [hpd]; exact pathJoin_ne_empty _ _
  have hcopy := copyFileWithHash_stale hfn (mkTmp (primaryDest root hash entry)) hash
    src (primaryDest root hash entry) fs content hhash hsrc hdstne hopen hmis htmp
  unfold materializeEntry
  rw [hsort]
  dsimp only
  rw [← hpd, hdst]
  dsimp only [Option.isSome]
  rw [if_neg (by simp)]
  rw [hcopy]

/-- A successful primary copy leaves the rest of the iteration as exactly the
attachment loop run on the file map extended by the one primary file. -/
theorem materializeEntry_ok (hfn : List Nat → Hash) (mkTmp : String → String)
    (root : String) (hash : Hash) (entry : IndexEntry) (fs : FileSys)
    (src : String) (rest : List String) (content : List Nat)
    (hsort : sortStrings entry.paths = src :: rest)
    (hsrc : src ≠ "") (hhash : hash ≠ [])
    (hopen : lookupA fs src = some content)
    (hmatch : hfn content = hash)
    (hdst : lookupA fs (primaryDest root hash entry) = none)
    (htmp : lookupA fs (mkTmp (primaryDest root hash entry)) = none) :
    materializeEntry hfn mkTmp root hash entry fs
      = copyAttachments mkTmp
          (pathJoin (pathJoin root (hexByte (hash.getD 0 0))) (hexByte (hash.getD 1 0)))
          hash entry.attachments
          (putAssoc fs (primaryDest root hash entry) content) := by
  have hpd : primaryDest root hash entry
      = pathJoin (pathJoin (pathJoin root (hexByte (hash.getD 0 0)))
          (hexByte (hash.getD 1 0)))
          (hexBytes hash ++ extClean src) := by
    rw [primaryDest, hsort]
    rfl
  have hdstne : primaryDest root hash entry ≠ "" := by
    rw [hpd]; exact pathJoin_ne_empty _ _
  have hcopy := copyFileWithHash_ok hfn (mkTmp (primaryDest root hash entry)) hash
    src (primaryDest root hash entry) fs content hhash hsrc hdstne hopen hmatch htmp
  unfold materializeEntry
  rw [hsort]
  dsimp only
  rw [← hpd, hdst]
  dsimp only [Option.isSome]
  rw [if_neg (by simp)]
  rw [hcopy]

/-- With no attachments the write set of a successful iteration is exactly
the one primary file. -/
theorem materializeEntry_ok_noAttach (hfn : List Nat → Hash) (mkTmp : String → String)
    (root : String) (hash : Hash) (entry : IndexEntry) (fs : FileSys)
    (src : String) (rest : List String) (content : List Nat)
    (hsort : sortStrings entry.paths = src :: rest)
    (hsrc : src ≠ "") (hhash : hash ≠ [])
    (hAtt : entry.attachments = [])
    (hopen : lookupA fs src = some content)
    (hmatch : hfn content = hash)
    (hdst : lookupA fs (primaryDest root hash entry) = none)
    (htmp : lookupA fs (mkTmp (primaryDest root hash entry)) = none) :
    materializeEntry hfn mkTmp root hash entry fs
      = (putAssoc fs (primaryDest root hash entry) content, none) := by
  rw [materializeEntry_ok hfn mkTmp root hash entry fs src rest content
    hsort hsrc hhash hopen hmatch hdst htmp, hAtt]
  rfl

/-- Claim C2: on an entry whose source file's bytes have changed since
indexing (the recorded hash is the hash of the old content, which differs
from the hash of the bytes now on disk), materialization fails with the
stale-index error, the temporary file is discarded, no file is left at the
entry's intended destination, and the store — read under `db.View` — is
untouched. -/
theorem claim_C2 (hfn : List Nat → Hash) (mkTmp : String → String)
    (root : String) (hash : Hash) (entry : IndexEntry) (fs : FileSys)
    (src : String) (rest : List String) (oldContent newContent : List Nat)
    (hsort : sortStrings entry.paths = src :: rest)
    (hsrc : src ≠ "")
    (hrec : hash = hfn oldContent) (hne : hash ≠ [])
    (hopen : lookupA fs src = some newContent)
    (hchanged : hfn newContent ≠ hfn oldContent)
    (hdst : lookupA fs (primaryDest root hash entry) = none)
    (htmp : lookupA fs (mkTmp (primaryDest root hash entry)) = none) :
    materializeEntry hfn mkTmp root hash entry fs
      = (fs, some "hash mismatch: index is stale")
    ∧ lookupA (materializeEntry hfn mkTmp root hash entry fs).1
        (primaryDest root hash entry) = none
    ∧ lookupA (materializeEntry hfn mkTmp root hash entry fs).1
        (mkTmp (primaryDest root hash entry)) = none
    ∧ ∀ (db : Store) (nm rt : String) (fs2 : FileSys),
        (materializeIndexOp hfn mkTmp db nm rt fs2).1 = db := by
  have hmis : hfn newContent ≠ hash := by rw [hrec]; exact hchanged
  have hmain := materializeEntry_stale hfn mkTmp root hash entry fs src rest newContent
    hsort hsrc hne hopen hmis hdst htmp
  refine ⟨hmain, ?_, ?_, fun db nm rt fs2 => materializeIndexOp_store hfn mkTmp db nm rt fs2⟩
  · rw [hmain]; exact hdst
  · rw [hmain]; exact htmp

theorem claim_C2_witness :
    materializeEntry (fun l => l) (fun d => d ++ ".tmp") "/out" [9] entC
        [("/c/2.txt", [7])]
      = ([("/c/2.txt", [7])], some "hash mismatch: index is stale")
    ∧ lookupA (materializeEntry (fun l => l) (fun d => d ++ ".tmp") "/out" [9] entC
        [("/c/2.txt", [7])]).1 (primaryDest "/out" [9] entC) = none := by
  have h := claim_C2 (fun l => l) (fun d => d ++ ".tmp") "/out" [9] entC
    [("/c/2.txt", [7])] "/c/2.txt" [] [9] [7]
    (by decide) (by decide) rfl (by decide) (by decide) (by decide) (by decide) (by decide)
  exact ⟨h.1, h.2.1⟩

/-- Claim C6: for every entry with two or more paths, a successful
materialization writes exactly one primary file, at
root/hex(hash[0])/hex(hash[1])/fullHexHash+ext, where ext comes from the
lexicographically first path of the entry's path set — a choice invariant
under any permutation of the path set, hence independent of walk order and
map iteration order.  The first conjunct exhibits the full iteration as the
single primary write followed by the attachment loop (which writes only the
attachment names fullHexHash+attachmentExt), so the primary file is written
once whatever the attachments are; with no attachments the write set is
exactly the one primary file. -/
theorem claim_C6 (hfn : List Nat → Hash) (mkTmp : String → String)
    (root : String) (hash : Hash) (entry : IndexEntry) (fs : FileSys)
    (content : List Nat)
    (hlen : 2 ≤ entry.paths.length)
    (hnb : ∀ p ∈ entry.paths, p ≠ "")
    (hhash : hash ≠ [])
    (hopen : lookupA fs ((sortStrings entry.paths).headD "") = some content)
    (hmatch : hfn content = hash)
    (hdst : lookupA fs (primaryDest root hash entry) = none)
    (htmp : lookupA fs (mkTmp (primaryDest root hash entry)) = none) :
    materializeEntry hfn mkTmp root hash entry fs
      = copyAttachments mkTmp
          (pathJoin (pathJoin root (hexByte (hash.getD 0 0))) (hexByte (hash.getD 1 0)))
          hash entry.attachments
          (putAssoc fs (primaryDest root hash entry) content)
    ∧ lookupA (putAssoc fs (primaryDest root hash entry) content)
        (primaryDest root hash entry) = some content
    ∧ (entry.attachments = [] →
        materializeEntry hfn mkTmp root hash entry fs
          = (putAssoc fs (primaryDest root hash entry) content, none))
    ∧ primaryDest root hash entry
      = pathJoin (pathJoin (pathJoin root (hexByte (hash.getD 0 0)))
          (hexByte (hash.getD 1 0)))
          (hexBytes hash ++ extClean ((sortStrings entry.paths).headD ""))
    ∧ ∀ ps : List String, ps.Perm entry.paths →
        primaryDest root hash { entry with paths := ps }
          = primaryDest root hash entry := by
  have hne3 : sortStrings entry.paths ≠ [] := by
    intro hh
    have hlen2 := (sortStrings_perm entry.paths).length_eq
    rw [hh] at hlen2
    simp only [List.length_nil] at hlen2
    omega
  obtain ⟨src, rest, hsort⟩ := List.exists_cons_of_ne_nil hne3
  have hsrcmem : src ∈ entry.paths := by
    have hmem : src ∈ sortStrings entry.paths := by
      rw [hsort]; exact List.mem_cons_self _ _
    exact (sortStrings_perm entry.paths).mem_iff.mp hmem
  have hsrc : src ≠ "" := hnb src hsrcmem
  have hhead : (sortStrings entry.paths).headD "" = src := by rw [hsort]; rfl
  rw [hhead] at hopen
  refine ⟨materializeEntry_ok hfn mkTmp root hash entry fs src rest content
      hsort hsrc hhash hopen hmatch hdst htmp,
    lookupA_putAssoc_self fs _ content,
    fun hAtt => materializeEntry_ok_noAttach hfn mkTmp root hash entry fs src rest content
      hsort hsrc hhash hAtt hopen hmatch hdst htmp,
    rfl, ?_⟩
  intro ps hperm
  rw [primaryDest, primaryDest]
  have hps : sortStrings ps = sortStrings entry.paths :=
    sortStrings_eq_of_perm ps entry.paths hperm
  rw [show ({ entry with paths := ps } : IndexEntry).paths = ps from rfl, hps]

theorem claim_C6_witness :
    materializeEntry (fun l => l) (fun d => d ++ ".tmp") "/out" [1, 2] entE fsE
      = copyAttachments (fun d => d ++ ".tmp") "/out/01/02" [1, 2] entE.attachments
          (putAssoc fsE (primaryDest "/out" [1, 2] entE) [1, 2])
    ∧ primaryDest "/out" [1, 2] entE = "/out/01/02/0102.jpg"
    ∧ materializeEntry (fun l => l) (fun d => d ++ ".tmp") "/out" [1, 2] entD
        [("/a/2.jpg", [1, 2])]
      = (putAssoc [("/a/2.jpg", [1, 2])] (primaryDest "/out" [1, 2] entD) [1, 2], none)
    ∧ primaryDest "/out" [1, 2] { entE with paths := ["/a/2.jpg", "/b/2.txt"] }
        = primaryDest "/out" [1, 2] entE := by
  have hE := claim_C6 (fun l => l) (fun d => d ++ ".tmp") "/out" [1, 2] entE fsE [1, 2]
    (by decide) (by decide) (by decide) (by decide) (by decide) (by decide) (by decide)
  have hD := claim_C6 (fun l => l) (fun d => d ++ ".tmp") "/out" [1, 2] entD
    [("/a/2.jpg", [1, 2])] [1, 2]
    (by decide) (by decide) (by decide) (by decide) (by decide) (by decide) (by decide)
  refine ⟨?_, by decide, hD.2.2.1 rfl, hE.2.2.2.2 ["/a/2.jpg", "/b/2.txt"] (by decide)⟩
  rw [hE.1]
  rfl
